import Mathlib

/-
Shallow embedding of the transfinite ordinal arithmetic engine of
src/transfinite/ordinal.py (the final, unified implementation: natural
part + Cantor normal form + Veblen normal form), together with proofs
settling the claims of CLAIMS.json.

Modelling conventions, fixed throughout:

* A Python value that the library stores in a term position (a CNF
  exponent, a VNF subscript or argument) is either a plain `int` or an
  `ordinal` object.  The distinction is observable (mixed int/ordinal
  comparisons go through the `numbers.Real` branch of the comparison
  methods and never consult hashes, while ordinal/ordinal comparisons
  start with a hash shortcut), so we keep it: `PV` below is the type of
  such dynamic values.  Only non-negative integers ever occur in these
  positions (negative ones are rejected at construction), so the `int`
  case carries a `Nat`.

* CPython's `hash` is modelled exactly for the values that occur:
  `hash(n) = n % (2^61 - 1)` for a non-negative int `n`, the signed
  variant for the (possibly negative) intermediate hash ints, and the
  xxHash-based tuple hash of CPython 3.8+ (primes 11400714785074694791,
  14029467366897019727, 2870177450012600261, rotate-left by 31,
  a final xor-of-length step, and the `(Py_uhash_t)-1 -> 1546275796`
  fixup).  Hash values are represented by their unsigned 64-bit bit
  pattern as a `Nat < 2^64`; this matches CPython because a hash value
  is fed into an enclosing tuple hash exactly through that bit pattern.
  This model was checked against CPython 3 on the tuple shapes that the
  library hashes.

* Recursive functions that the kernel must evaluate on concrete inputs
  are written with an explicit fuel parameter (structural recursion on
  the fuel), and a wrapper supplies fuel that strictly exceeds the
  recursion depth: every nested call of the comparison family strictly
  decreases the combined `sz*` measure of its arguments and at most a
  constant number of intermediate calls separate two measure decreases,
  so `64 * (measure) + 64` fuel can never run out.  Out-of-fuel branches
  return junk that is provably never reached with the wrapper's fuel.
-/

namespace PyOrd

mutual

/-- A dynamic Python value in a term position: a non-negative `int` or an
`ordinal` object. -/
inductive PV : Type where
  | pint (n : Nat)
  | pord (o : POrd)
deriving DecidableEq

/-- An `ordinal` object: the `_vnf`, `_cnf` and `_nat` fields of
`ordinal.__init__`.  `_hash`, `_tier` and `_kind` are precomputed pure
functions of these fields and are modelled as functions. -/
inductive POrd : Type where
  | mk (vnf : VL) (cnf : CL) (nat : Nat)
deriving DecidableEq

/-- The `_vnf` list: each entry `(s, i, c)` represents `phi_s(i) * c`. -/
inductive VL : Type where
  | nil
  | cons (sub idx : PV) (coe : Nat) (tail : VL)
deriving DecidableEq

/-- The `_cnf` list: each entry `(p, c)` represents `omega^p * c`. -/
inductive CL : Type where
  | nil
  | cons (exp : PV) (coe : Nat) (tail : CL)
deriving DecidableEq

end

def POrd.vnf : POrd → VL
  | .mk v _ _ => v

def POrd.cnf : POrd → CL
  | .mk _ c _ => c

def POrd.nat : POrd → Nat
  | .mk _ _ n => n

/- Size measures used for fuel bounds and induction.  Coefficients are
counted so that replacing a coefficient `c > 1` by `1` strictly
decreases the measure. -/
mutual

def szP : PV → Nat
  | .pint _ => 1
  | .pord o => 1 + szO o

def szO : POrd → Nat
  | .mk v c _ => 1 + szV v + szC c

def szV : VL → Nat
  | .nil => 0
  | .cons s i k t => 1 + szP s + szP i + k + szV t

def szC : CL → Nat
  | .nil => 0
  | .cons e k t => 1 + szP e + k + szC t

end

/-- Python `len(bin(x)) - 3`, i.e. the floor base-2 logarithm for `x >= 1`
and `0` for `x = 0` (`bin(0) = '0b0'`).  Written with fuel so that the
kernel evaluates it; 70 units of fuel are exact for every argument below
`2^70`, which covers every number this development evaluates it on. -/
def binLogF : Nat → Nat → Nat
  | 0, _ => 0
  | f + 1, n => if n < 2 then 0 else binLogF f (n / 2) + 1

def bin_log (n : Nat) : Nat := binLogF 70 n

/-- `sys.hash_info.modulus` on a 64-bit CPython build. -/
def MOD61 : Nat := 2 ^ 61 - 1

def W64 : Nat := 2 ^ 64

/-- CPython hash of a non-negative int. -/
def pyIntHash (n : Nat) : Nat := n % MOD61

/-- CPython hash of the int whose unsigned 64-bit pattern is `u`
(a previously computed hash value): the sign is taken from bit 63,
the reduction is modulo `2^61 - 1` with the `-1 -> -2` fixup, and the
result is returned as an unsigned 64-bit pattern again. -/
def pyIntHashSigned (u : Nat) : Nat :=
  if u < 2 ^ 63 then u % MOD61
  else
    let m := (W64 - u) % MOD61
    if m = 0 then 0 else if m = 1 then W64 - 2 else W64 - m

/-- Rotate a 64-bit pattern left by 31 bits. -/
def rotl31 (x : Nat) : Nat := x % 2 ^ 33 * 2 ^ 31 + x / 2 ^ 33

def XXP1 : Nat := 11400714785074694791
def XXP2 : Nat := 14029467366897019727
def XXP5 : Nat := 2870177450012600261

def tupleHashFold (acc : Nat) : List Nat → Nat
  | [] => acc
  | lane :: rest =>
      tupleHashFold (rotl31 ((acc + lane * XXP2) % W64) * XXP1 % W64) rest

/-- CPython 3.8+ tuple hash from the list of the elements' hash
patterns. -/
def pyTupleHash (lanes : List Nat) : Nat :=
  let acc := (tupleHashFold XXP5 lanes + (lanes.length ^^^ (XXP5 ^^^ 3527539))) % W64
  if acc = W64 - 1 then 1546275796 else acc

mutual

/-- Hash of a dynamic value: a plain int hashes as an int, an ordinal by
its `_hash` field. -/
def pvHash : PV → Nat
  | .pint n => pyIntHash n
  | .pord o => ordHash o

/-- The `_hash` field precomputed in `ordinal.__init__`:
`_hash = hash(nat)`, then `hash((_hash, 1, tuple(cnf)))` if `_cnf` is
non-empty, then `hash((_hash, 2, tuple(vnf)))` if `_vnf` is non-empty. -/
def ordHash : POrd → Nat
  | .mk v c n =>
      let h0 := pyIntHash n
      let h1 :=
        match c with
        | .nil => h0
        | c => pyTupleHash [pyIntHashSigned h0, 1, pyTupleHash (cnfLanes c)]
      match v with
      | .nil => h1
      | v => pyTupleHash [pyIntHashSigned h1, 2, pyTupleHash (vnfLanes v)]

def cnfLanes : CL → List Nat
  | .nil => []
  | .cons e k t => pyTupleHash [pvHash e, pyIntHash k] :: cnfLanes t

def vnfLanes : VL → List Nat
  | .nil => []
  | .cons s i k t => pyTupleHash [pvHash s, pvHash i, pyIntHash k] :: vnfLanes t

end

mutual

/-- `tier` of a dynamic value: an int is first converted to an ordinal,
whose tier is `(0, bin_log n)`. -/
def tierP : PV → Nat × Nat
  | .pint n => (0, bin_log n)
  | .pord o => tierO o

/-- The `_tier` field precomputed in `ordinal.__init__`. -/
def tierO : POrd → Nat × Nat
  | .mk v c n =>
      match v with
      | .cons s i _ _ =>
          let ts := tierP s
          let ti := tierP i
          let tsub := (ts.1 + 2, ts.2)
          -- Python `max(_tier_sub, _tier_index)` on int pairs
          if tsub.1 < ti.1 ∨ (tsub.1 = ti.1 ∧ tsub.2 < ti.2) then ti else tsub
      | .nil =>
          match c with
          | .cons e _ _ =>
              let t := tierP e
              -- Python `(1, (_tier[0] and _tier[1]) + 1)`
              (1, (if t.1 = 0 then 0 else t.2) + 1)
          | .nil => (0, bin_log n)

end

/-- Lexicographic `<` on tier pairs (Python tuple comparison of ints). -/
def tierLt (a b : Nat × Nat) : Bool :=
  a.1 < b.1 || (a.1 = b.1 && a.2 < b.2)

/-- The three kinds of ordinals. -/
inductive PKind : Type where
  | zero
  | successor
  | limit
deriving DecidableEq

/-- The `_kind` field precomputed in `ordinal.__init__`. -/
def kindO : POrd → PKind
  | .mk v c n =>
      if n = 0 then
        match v, c with
        | .nil, .nil => .zero
        | _, _ => .limit
      else .successor

/-- `kind` of a dynamic value (`kind` treats a positive int as a
successor and `0` as zero). -/
def kindP : PV → PKind
  | .pint n => if n = 0 then .zero else .successor
  | .pord o => kindO o

/-- The `numbers.Real` branch of `ordinal.__eq__`: comparing an ordinal
with a plain int never looks at hashes. -/
def ordEqInt (o : POrd) (n : Nat) : Bool :=
  match o with
  | .mk .nil .nil m => m == n
  | _ => false

/-- The `numbers.Real` branch of `ordinal.__lt__`. -/
def ordLtInt (o : POrd) (n : Nat) : Bool :=
  match o with
  | .mk .nil .nil m => m < n
  | _ => false

/-- The `numbers.Real` branch of `ordinal.__le__`. -/
def ordLeInt (o : POrd) (n : Nat) : Bool :=
  match o with
  | .mk .nil .nil m => m ≤ n
  | _ => false

/-
The comparison family of `ordinal`: `__eq__`, `__lt__`, `__le__` and the
static `_veblen_cmp`, mutually recursive.  `__lt__`/`__le__` first
shortcut on `hash(self) == hash(other)` (returning `False`/`True`
respectively), then on the precomputed tiers, and only then compare
`(tuple(map(vnf_key, _vnf)), _cnf, _nat)` lexicographically, where VNF
terms are ordered by `_veblen_cmp` and all element comparisons re-enter
the full `==`/`<` of the stored values.  Python's tuple/list comparison
finds the first position where elements are not `==` and decides by `<`
there, a shorter strict prefix being smaller; this is exactly an
`Ordering`-valued lexicographic scan.
-/
mutual

/-- `ordinal.__eq__` restricted to two ordinal operands. -/
def ordEqF : Nat → POrd → POrd → Bool
  | 0, _, _ => false
  | f + 1, a, b =>
      if ordHash a ≠ ordHash b then false
      else if tierO a ≠ tierO b then false
      else vnfEqF f a.vnf b.vnf && cnfEqF f a.cnf b.cnf && a.nat == b.nat

def vnfEqF : Nat → VL → VL → Bool
  | 0, _, _ => false
  | _ + 1, .nil, .nil => true
  | f + 1, .cons s i k t, .cons s' i' k' t' =>
      pvEqF f s s' && pvEqF f i i' && k == k' && vnfEqF f t t'
  | _ + 1, _, _ => false

def cnfEqF : Nat → CL → CL → Bool
  | 0, _, _ => false
  | _ + 1, .nil, .nil => true
  | f + 1, .cons e k t, .cons e' k' t' =>
      pvEqF f e e' && k == k' && cnfEqF f t t'
  | _ + 1, _, _ => false

/-- Python `x == y` on two stored values: int/int compares the ints,
int/ordinal and ordinal/int go through the `numbers.Real` branch of
`ordinal.__eq__`, ordinal/ordinal is `ordinal.__eq__`. -/
def pvEqF : Nat → PV → PV → Bool
  | 0, _, _ => false
  | _ + 1, .pint n, .pint m => n == m
  | _ + 1, .pint n, .pord o => ordEqInt o n
  | _ + 1, .pord o, .pint n => ordEqInt o n
  | f + 1, .pord o, .pord p => ordEqF f o p

/-- Python `x < y` on two stored values.  For `int < ordinal` Python
falls back to the reflected `ordinal.__gt__`, which is
`not (self <= other)` through the `numbers.Real` branch. -/
def pvLtF : Nat → PV → PV → Bool
  | 0, _, _ => false
  | _ + 1, .pint n, .pint m => n < m
  | _ + 1, .pint n, .pord o => !ordLeInt o n
  | _ + 1, .pord o, .pint n => ordLtInt o n
  | f + 1, .pord o, .pord p => ordLtF f o p

/-- Python `x > y` on two stored values.  For `int > ordinal` Python
falls back to the reflected `ordinal.__lt__` (`numbers.Real` branch);
for an ordinal on the left `__gt__` is `not (self <= other)`. -/
def pvGtF : Nat → PV → PV → Bool
  | 0, _, _ => false
  | _ + 1, .pint n, .pint m => m < n
  | _ + 1, .pint n, .pord o => ordLtInt o n
  | _ + 1, .pord o, .pint n => !ordLeInt o n
  | f + 1, .pord o, .pord p => !ordLeF f o p

/-- `ordinal.__lt__` restricted to two ordinal operands. -/
def ordLtF : Nat → POrd → POrd → Bool
  | 0, _, _ => false
  | f + 1, a, b =>
      if ordHash a = ordHash b then false
      else if tierLt (tierO a) (tierO b) then true
      else if tierLt (tierO b) (tierO a) then false
      else
        match vnfCmpF f a.vnf b.vnf with
        | .lt => true
        | .gt => false
        | .eq =>
            match cnfCmpF f a.cnf b.cnf with
            | .lt => true
            | .gt => false
            | .eq => a.nat < b.nat

/-- `ordinal.__le__` restricted to two ordinal operands. -/
def ordLeF : Nat → POrd → POrd → Bool
  | 0, _, _ => false
  | f + 1, a, b =>
      if ordHash a = ordHash b then true
      else if tierLt (tierO a) (tierO b) then true
      else if tierLt (tierO b) (tierO a) then false
      else
        match vnfCmpF f a.vnf b.vnf with
        | .lt => true
        | .gt => false
        | .eq =>
            match cnfCmpF f a.cnf b.cnf with
            | .lt => true
            | .gt => false
            | .eq => a.nat ≤ b.nat

/-- Lexicographic comparison of the `cmp_to_key`-wrapped VNF term
tuples. -/
def vnfCmpF : Nat → VL → VL → Ordering
  | 0, _, _ => .eq
  | _ + 1, .nil, .nil => .eq
  | _ + 1, .nil, .cons _ _ _ _ => .lt
  | _ + 1, .cons _ _ _ _, .nil => .gt
  | f + 1, .cons s i k t, .cons s' i' k' t' =>
      match vcmpF f s i k s' i' k' with
      | .eq => vnfCmpF f t t'
      | o => o

/-- `ordinal._veblen_cmp` on VNF terms `(asub, aindex, acount)` and
`(bsub, bindex, bcount)`: if the subscripts compare strictly (`<`
first, then `>`), the term with the larger subscript is rewrapped as a
coefficient-1 single-term ordinal and compared as the pair
`(argument-or-wrapped-term, count)`; otherwise the `(index, count)`
pairs are compared directly. -/
def vcmpF : Nat → PV → PV → Nat → PV → PV → Nat → Ordering
  | 0, _, _, _, _, _, _ => .eq
  | f + 1, as', ai, ac, bs, bi, bc =>
      if pvLtF f as' bs then
        pairCmpF f ai ac (.pord (.mk (.cons bs bi 1 .nil) .nil 0)) bc
      else if pvGtF f as' bs then
        pairCmpF f (.pord (.mk (.cons as' ai 1 .nil) .nil 0)) ac bi bc
      else pairCmpF f ai ac bi bc

/-- The `_cmp` helper of `_veblen_cmp` on pairs `(x, count)`:
Python tuple comparison, `==` then `<`. -/
def pairCmpF : Nat → PV → Nat → PV → Nat → Ordering
  | 0, _, _, _, _ => .eq
  | f + 1, x, k, y, l =>
      if pvEqF f x y then
        if k = l then .eq else if k < l then .lt else .gt
      else if pvLtF f x y then .lt
      else .gt

/-- Python list comparison of two `_cnf` lists of `(exponent,
coefficient)` tuples. -/
def cnfCmpF : Nat → CL → CL → Ordering
  | 0, _, _ => .eq
  | _ + 1, .nil, .nil => .eq
  | _ + 1, .nil, .cons _ _ _ => .lt
  | _ + 1, .cons _ _ _, .nil => .gt
  | f + 1, .cons e k t, .cons e' k' t' =>
      if pvEqF f e e' then
        if k = k' then cnfCmpF f t t' else if k < k' then .lt else .gt
      else if pvLtF f e e' then .lt
      else .gt

end

/-- Fuel exceeding the recursion depth of the comparison family on these
arguments (each nested call strictly decreases the combined size, with
at most a constant number of calls between decreases). -/
def cmpFuel (a b : POrd) : Nat := 64 * (szO a + szO b) + 64

def ordEq (a b : POrd) : Bool := ordEqF (cmpFuel a b) a b

def ordLt (a b : POrd) : Bool := ordLtF (cmpFuel a b) a b

def ordLe (a b : POrd) : Bool := ordLeF (cmpFuel a b) a b

def pvFuel (x y : PV) : Nat := 64 * (szP x + szP y) + 64

def pvEq (x y : PV) : Bool := pvEqF (pvFuel x y) x y

def pvLt (x y : PV) : Bool := pvLtF (pvFuel x y) x y

def pvGt (x y : PV) : Bool := pvGtF (pvFuel x y) x y

/-- `_veblen_cmp` on two coefficient-1-normalized heads, as used by the
term-erasing loop of `ordinal.__add__`. -/
def vcmpHeads (s i s' i' : PV) : Ordering :=
  vcmpF (64 * (szP s + szP i + szP s' + szP i') + 64) s i 1 s' i' 1

/-- Python `x == n` for a stored value `x` and an int literal `n`
(`other == 0`, `p == 1`, `term[0] == 0`, ...): int/int compares the
ints, ordinal/int goes through the `numbers.Real` branch. -/
def pvEqI (x : PV) (n : Nat) : Bool :=
  match x with
  | .pint m => m == n
  | .pord o => ordEqInt o n

/-- `ordinal(value)` for a stored value: an int becomes a pure-natural
ordinal, an ordinal keeps its fields. -/
def toOrd : PV → POrd
  | .pint n => .mk .nil .nil n
  | .pord o => o

def VL.tail : VL → VL
  | .nil => .nil
  | .cons _ _ _ t => t

def CL.tail : CL → CL
  | .nil => .nil
  | .cons _ _ t => t

def appendV : VL → VL → VL
  | .nil, ys => ys
  | .cons s i k t, ys => .cons s i k (appendV t ys)

def appendC : CL → CL → CL
  | .nil, ys => ys
  | .cons e k t, ys => .cons e k (appendC t ys)

/-
`ordinal.__add__`.  When the right operand's largest term is a VNF
(resp. CNF) term, the left operand's trailing VNF (resp. CNF) terms that
compare strictly below the right head are deleted from the end, a left
term whose head compares equal to the right head absorbs its
coefficient, and the rest of the right operand is appended; the result
takes the right operand's lower-ranked fields unchanged.  The recursive
`trimMerge*` below processes an element as "last" exactly when
everything after it has been trimmed, which is the while-loop's
behaviour.
-/

/-- Trim-and-merge of the left `_cnf` against the right head `(oe, ok)`;
the Bool reports whether the right head's coefficient was absorbed. -/
def trimMergeC : CL → PV → Nat → CL × Bool
  | .nil, _, _ => (.nil, false)
  | .cons e k t, oe, ok =>
      match trimMergeC t oe ok with
      | (.nil, false) =>
          if pvLt e oe then (.nil, false)
          else if pvEq e oe then (.cons e (k + ok) .nil, true)
          else (.cons e k .nil, false)
      | (t', m) => (.cons e k t', m)

/-- Trim-and-merge of the left `_vnf` against the right head
`(bs, bi, bk)`, comparing coefficient-1-normalized heads with
`_veblen_cmp`. -/
def trimMergeV : VL → PV → PV → Nat → VL × Bool
  | .nil, _, _, _ => (.nil, false)
  | .cons s i k t, bs, bi, bk =>
      match trimMergeV t bs bi bk with
      | (.nil, false) =>
          match vcmpHeads s i bs bi with
          | .lt => (.nil, false)
          | .eq => (.cons s i (k + bk) .nil, true)
          | .gt => (.cons s i k .nil, false)
      | (t', m) => (.cons s i k t', m)

/-- `ordinal.__add__` on two ordinal operands. -/
def ordAddO (a b : POrd) : POrd :=
  match b.vnf with
  | .cons bs bi bk bt =>
      let tm := trimMergeV a.vnf bs bi bk
      .mk (appendV tm.1 (if tm.2 then bt else .cons bs bi bk bt)) b.cnf b.nat
  | .nil =>
      match b.cnf with
      | .cons be bk bt =>
          let tm := trimMergeC a.cnf be bk
          .mk a.vnf (appendC tm.1 (if tm.2 then bt else .cons be bk bt)) b.nat
      | .nil => .mk a.vnf a.cnf (a.nat + b.nat)

/-- `ordinal.__add__` with an int right operand: only `_nat` grows. -/
def ordAddNat (a : POrd) (m : Nat) : POrd := .mk a.vnf a.cnf (a.nat + m)

/-- Python `x + y` on stored values; `int + ordinal` goes through
`ordinal.__radd__`, i.e. `ordinal(x) + y`. -/
def pvAdd : PV → PV → PV
  | .pint n, .pint m => .pint (n + m)
  | .pint n, .pord o => .pord (ordAddO (.mk .nil .nil n) o)
  | .pord o, .pint m => .pord (ordAddNat o m)
  | .pord o, .pord p => .pord (ordAddO o p)

/-- The leading multiplicative term of an ordinal, tagged by the
hierarchy it lands in (`self_h`/`self_top` in `ordinal.__mul__`). -/
inductive Top : Type where
  | tnat (n : Nat)
  | tcnf (e : PV) (k : Nat)
  | tvnf (s i : PV) (k : Nat)

/-- The "exponent-equivalent" of a VNF term head used by `_term_mul`:
`phi_0(x)` contributes `x` itself, any other subscript contributes the
coefficient-1 term wrapped as an ordinal. -/
def vnfUp (s i : PV) : PV :=
  if pvEqI s 0 then i else .pord (.mk (.cons s i 1 .nil) .nil 0)

/-- `_exp_add`: builds `omega^(l_up + r_up) * rc`.  When the sum is a
single coefficient-1 VNF term with non-zero subscript it is a fixed
point and only its coefficient is scaled; otherwise a fresh
`phi_0(sum) * rc` term is built.  (The sum of two stored values is an
`int` only when both summands are; the library never stores an int as
the argument of a subscript-0 VNF term, so in `_exp_add` the sum is
always an ordinal object — Python would raise an `AttributeError`
otherwise.  The int case below mirrors the ordinal it denotes and is
unreachable from the library's own constructions.) -/
def expAdd (lup rup : PV) (rc : Nat) : POrd :=
  match pvAdd lup rup with
  | .pord u =>
      match u with
      | .mk (.cons s i k .nil) .nil 0 =>
          if !pvEqI s 0 && k == 1 then .mk (.cons s i (k * rc) .nil) .nil 0
          else .mk (.cons (.pint 0) (.pord u) rc .nil) .nil 0
      | _ => .mk (.cons (.pint 0) (.pord u) rc .nil) .nil 0
  | .pint n => .mk (.cons (.pint 0) (.pord (.mk .nil .nil n)) rc .nil) .nil 0

/-- `_term_mul`: product of two multiplicative terms. -/
def termMul : Top → Top → POrd
  | .tnat l, .tnat r => .mk .nil .nil (l * r)
  | .tcnf e k, .tnat r => .mk .nil (.cons e (k * r) .nil) 0
  | .tvnf s i k, .tnat r => .mk (.cons s i (k * r) .nil) .nil 0
  | .tnat _, .tcnf e k => .mk .nil (.cons e k .nil) 0
  | .tcnf e _, .tcnf e' k' => .mk .nil (.cons (pvAdd e e') k' .nil) 0
  | .tvnf s i _, .tcnf e' k' => expAdd (vnfUp s i) e' k'
  | .tnat _, .tvnf s i k => .mk (.cons s i k .nil) .nil 0
  | .tcnf e _, .tvnf s' i' k' => expAdd e (vnfUp s' i') k'
  | .tvnf s i _, .tvnf s' i' k' => expAdd (vnfUp s i) (vnfUp s' i') k'

/-
`reduce_bisected`: a fold in perfect-binary-tree order over a stack,
with the enumeration index (starting at 2 for the second element)
driving the merges; at the end the stack is folded from the top.  The
stack is modelled with its top at the head.  The merge loop runs once
per trailing zero bit of the index; 64 fuel units cover any index below
`2^64`.
-/

def rbMergeWhile (f : PV → PV → PV) : Nat → Nat → List PV → List PV
  | 0, _, s => s
  | fuel + 1, i, s =>
      if i % 2 = 1 then s
      else
        match s with
        | x :: y :: r => rbMergeWhile f fuel (i / 2) (f y x :: r)
        | s => s

def rbLoop (f : PV → PV → PV) : Nat → List PV → List PV → List PV
  | _, [], stack => stack
  | i, v :: rest, stack => rbLoop f (i + 1) rest (rbMergeWhile f 64 i (v :: stack))

def rbFinish (f : PV → PV → PV) : PV → List PV → PV
  | x, [] => x
  | x, y :: r => rbFinish f (f y x) r

/-- `sum_bisected` over Python `+`. -/
def sumBisected : List PV → PV
  | [] => .pint 0
  | v :: rest =>
      match rbLoop pvAdd 2 rest [v] with
      | [] => .pint 0
      | x :: r => rbFinish pvAdd x r

def vnfPieces (t : Top) : VL → List PV
  | .nil => []
  | .cons s i k tail => .pord (termMul t (.tvnf s i k)) :: vnfPieces t tail

def cnfPieces (t : Top) : CL → List PV
  | .nil => []
  | .cons e k tail => .pord (termMul t (.tcnf e k)) :: cnfPieces t tail

/-- `ordinal.__mul__`.  After the `*0`, `*1`, `0*`, `1*` special cases
(which return plain Python ints or the operands themselves), the right
operand is distributed term by term against the left operand's leading
term, the remainder of the left operand being reattached only beneath
the right operand's natural part. -/
def ordMul (a : POrd) (b : PV) : PV :=
  if pvEqI b 0 then .pint 0
  else if pvEqI b 1 then .pord a
  else if ordEqInt a 0 then .pint 0
  else if ordEqInt a 1 then b
  else
    let ob := toOrd b
    let top : Top :=
      match a.vnf with
      | .cons s i k _ => .tvnf s i k
      | .nil =>
          match a.cnf with
          | .cons e k _ => .tcnf e k
          | .nil => .tnat a.nat
    let rem : PV :=
      match top with
      | .tvnf _ _ _ => .pord (.mk a.vnf.tail a.cnf a.nat)
      | .tcnf _ _ => .pord (.mk .nil a.cnf.tail a.nat)
      | .tnat _ => .pint 0
    let pieces :=
      vnfPieces top ob.vnf ++ cnfPieces top ob.cnf ++
        (if ob.nat ≠ 0 then [.pord (termMul top (.tnat ob.nat)), rem] else [])
    sumBisected pieces

/-- Python `x * y` on stored values; `int * ordinal` goes through
`ordinal.__rmul__`, i.e. `ordinal(x) * y`. -/
def pvMul : PV → PV → PV
  | .pint n, .pint m => .pint (n * m)
  | .pint n, .pord o => ordMul (.mk .nil .nil n) (.pord o)
  | .pord o, y => ordMul o y

/-- `pow_sq`: exponentiation by squaring over Python `*`.  70 fuel units
cover any exponent below `2^70`. -/
def powSqF : Nat → PV → PV → Nat → PV
  | 0, r, _, _ => r
  | fuel + 1, r, x, y =>
      if y = 0 then r
      else powSqF fuel (if y % 2 = 1 then pvMul r x else r) (pvMul x x) (y / 2)

def powSq (x : PV) (y : Nat) : PV := powSqF 70 (.pint 1) x y

/-- The general construction of `veblen` after the fixed-point check:
subscript 0 is omega-exponentiation (`value = 0` gives the int `1`, a
value already inside the VNF hierarchy is wrapped as `phi_0(value)`,
anything else becomes the CNF term `omega^value`); a non-zero subscript
builds the single VNF term directly. -/
def veblenRest (sub value : PV) : PV :=
  if pvEqI sub 0 then
    if pvEqI value 0 then .pint 1
    else
      match value with
      | .pord v =>
          match v.vnf with
          | .cons _ _ _ _ => .pord (.mk (.cons (.pint 0) value 1 .nil) .nil 0)
          | .nil => .pord (.mk .nil (.cons value 1 .nil) 0)
      | .pint _ => .pord (.mk .nil (.cons value 1 .nil) 0)
  else .pord (.mk (.cons sub value 1 .nil) .nil 0)

/-- `veblen(sub, value)`: if `value` is an ordinal consisting of exactly
one VNF term with coefficient 1, no CNF or natural content, and a
subscript strictly greater than `sub` (by the Python `>` of stored
values), it is a fixed point and is returned unchanged; otherwise the
general construction runs. -/
def pvVeblen (sub value : PV) : PV :=
  match value with
  | .pord (.mk (.cons s _ k .nil) .nil 0) =>
      if pvGt s sub && k == 1 then value
      else veblenRest sub value
  | _ => veblenRest sub value

/-- The `omega` constant (`ordinal('omega')`). -/
def omegaO : POrd := .mk .nil (.cons (.pint 1) 1 .nil) 0

/-- The `epsilon_0` constant (`ordinal('epsilon_0')`). -/
def epsilon0O : POrd := .mk (.cons (.pint 1) (.pint 0) 1 .nil) .nil 0

/-- The `zeta_0` constant (`ordinal('zeta_0')`). -/
def zeta0O : POrd := .mk (.cons (.pint 2) (.pint 0) 1 .nil) .nil 0

/-- Python `other < omega`: an int is always below omega via the
reflected `numbers.Real` branch; an ordinal compares with `__lt__`. -/
def pvLtOmega : PV → Bool
  | .pint _ => true
  | .pord o => ordLt o omegaO

/-- `int(x)` on a stored value: fails on a transfinite ordinal. -/
def pvToInt : PV → Except String Nat
  | .pint n => .ok n
  | .pord (.mk .nil .nil n) => .ok n
  | .pord _ => .error "ValueError: Cannot convert infinite ordinal to integer"

/-- The exponent rewrite of the integer-base/infinite-exponent case of
`__pow__` (`n^(omega*B) = omega^B`): CNF exponent 1 degrades to the
natural part (a later such term overwrites an earlier one), other
finite CNF exponents are decremented as ints, transfinite exponents are
kept.  The `Option` tracks whether the natural part was assigned. -/
def leftDecrF : CL → Except String (CL × Option Nat)
  | .nil => .ok (.nil, none)
  | .cons p k t => do
      let r ← leftDecrF t
      if pvEqI p 1 then .ok (r.1, some (r.2.getD k))
      else if pvLtOmega p then
        let e ← pvToInt p
        .ok (.cons (.pint (e - 1)) k r.1, r.2)
      else .ok (.cons p k r.1, r.2)

/-- The tail of `ordinal.__pow__` common to the three successor/limit
cases: `base * pow_sq(self, other._nat)` for a successor base and
successor exponent, `base * exn * self` for a successor exponent, and
`base` alone for a limit exponent. -/
def powFinish (a : POrd) (caseN : Nat) (exn : Nat) (base : PV) (obnat : Nat) :
    Except String PV :=
  if caseN = 2 then .ok (pvMul base (powSq (.pord a) obnat))
  else if caseN = 1 then .ok (pvMul (pvMul base (.pint exn)) (.pord a))
  else .ok base

/-- `ordinal.__pow__`.  The `self._cnf[0]` access raises an
`IndexError` when `self < omega` is `False` although `self` has neither
VNF nor CNF content (possible because `__lt__` shortcuts on equal
hashes), and `int()` raises on transfinite content; both are modelled
as errors. -/
def ordPow (a : POrd) (b : PV) : Except String PV :=
  if pvEqI b 0 || ordEqInt a 1 then .ok (.pint 1)
  else if pvEqI b 1 then .ok (.pord a)
  else if ordEqInt a 0 then .ok (.pint 0)
  else if ordLt a omegaO then
    match a with
    | .mk .nil .nil s =>
        if pvLtOmega b then do
          let e ← pvToInt b
          .ok (.pint (s ^ e))
        else do
          let ob := toOrd b
          let r ← leftDecrF ob.cnf
          let base := pvVeblen (.pint 0) (.pord (.mk ob.vnf r.1 (r.2.getD 0)))
          .ok (if ob.nat ≠ 0 then pvMul base (.pint (s ^ ob.nat)) else base)
    | _ => .error "ValueError: Cannot convert infinite ordinal to integer"
  else
    let ob := toOrd b
    let osucc := kindO ob == .successor
    let caseN : Nat :=
      if osucc && (kindO a == .successor) then 2 else if osucc then 1 else 0
    let exp : POrd :=
      if caseN = 2 then .mk ob.vnf ob.cnf 0
      else if caseN = 1 then .mk ob.vnf ob.cnf (ob.nat - 1)
      else ob
    match a.vnf with
    | .cons s i k _ =>
        powFinish a caseN k (pvVeblen (.pint 0) (pvMul (vnfUp s i) (.pord exp)))
          ob.nat
    | .nil =>
        match a.cnf with
        | .cons e k _ =>
            powFinish a caseN k (pvVeblen (.pint 0) (pvMul e (.pord exp))) ob.nat
        | .nil => .error "IndexError: list index out of range"

/-- Python `x ** y` on stored values; `int ** ordinal` goes through
`ordinal.__rpow__`, i.e. `ordinal(x) ** y`. -/
def pvPow : PV → PV → Except String PV
  | .pint n, .pint m => .ok (.pint (n ^ m))
  | .pint n, .pord o => ordPow (.mk .nil .nil n) (.pord o)
  | .pord o, y => ordPow o y

def notLimitMsg : String := "Not a limit ordinal, no fundamental sequence exists"

def predMsg : String := "Predecessor not defined for ordinals other than successor ordinals"

def notOrdMsg : String := "Value is not an ordinal number."

/-- `predecessor(value)`: defined only on successor ordinals; an int
loses 1, an ordinal loses 1 from its `_nat` field. -/
def pvPredE : PV → Except String PV
  | .pint n => if n = 0 then .error predMsg else .ok (.pint (n - 1))
  | .pord o =>
      match kindO o with
      | .successor => .ok (.pord (.mk o.vnf o.cnf (o.nat - 1)))
      | _ => .error predMsg

def lenV : VL → Nat
  | .nil => 0
  | .cons _ _ _ t => lenV t + 1

def lenC : CL → Nat
  | .nil => 0
  | .cons _ _ t => lenC t + 1

/-- `[value._cnf[-1]]` as a list (empty input gives the empty list). -/
def lastC : CL → CL
  | .nil => .nil
  | .cons e k .nil => .cons e k .nil
  | .cons _ _ (.cons e k t) => lastC (.cons e k t)

/-- `value._cnf[:-1]`. -/
def dropLastC : CL → CL
  | .nil => .nil
  | .cons _ _ .nil => .nil
  | .cons e k (.cons e' k' t) => .cons e k (dropLastC (.cons e' k' t))

def lastV : VL → VL
  | .nil => .nil
  | .cons s i k .nil => .cons s i k .nil
  | .cons _ _ _ (.cons s i k t) => lastV (.cons s i k t)

def dropLastV : VL → VL
  | .nil => .nil
  | .cons _ _ _ .nil => .nil
  | .cons s i k (.cons s' i' k' t) => .cons s i k (dropLastV (.cons s' i' k' t))

/-- The computed state of a `fundamental` object: the source and the
strategy fields `_direct`, `_step`, `_then`, `_index`, plus the start
value of the iterated-step strategy.  The `_cache` list is memoization
only: `__getitem__` computes exactly `_then(_step^n(start))` (the cache
stores every `cache_every`-th iterate of `_step`, which never changes
the value), so it is not part of the state. -/
inductive Fund : Type where
  | mk (source : POrd)
       (direct : Option (Nat → PV))
       (step : Option (PV → PV))
       (thenf : Option (PV → PV))
       (index : Option Fund)
       (start : PV)

/-- The branch analysis of `fundamental.__init__` on a limit ordinal:
which strategy applies, with which wrapper, and which ordinal the
sequence recursively delegates to (`to_index`). -/
structure FundPlan : Type where
  direct : Option (Nat → PV)
  step : Option (PV → PV)
  thenf : Option (PV → PV)
  toIndex : Option PV
  start : PV

/-- The case ladder of `fundamental.__init__` (after the limit check).
More than one term: peel off everything above the last term and
delegate to the last term, adding the rest back afterwards.  A single
VNF term: coefficient above 1 peels similarly; a limit argument
delegates to the argument with `veblen(sub, .)` applied after; subscript
0 (argument then necessarily a successor) is the direct sequence
`n * veblen(0, pred(argument))`; a successor subscript iterates
`veblen(sub - 1, .)` from `0` or `veblen(sub, pred(argument)) + 1`; a
limit subscript delegates to the subscript with `veblen(., to_arg)`
applied after.  A single CNF term: coefficient peel; `omega` itself is
the identity sequence; a successor exponent is `n * omega^(pred)`;
a limit exponent delegates with `veblen(0, .)` after. -/
def vnfSingleLadder (s i : PV) (k : Nat) : Except String FundPlan :=
  if k > 1 then
    .ok ⟨none, none,
      some (fun x => pvAdd (.pord (.mk (.cons s i (k - 1) .nil) .nil 0)) x),
      some (.pord (.mk (.cons s i 1 .nil) .nil 0)), .pint 0⟩
  else if kindP i = .limit then
    .ok ⟨none, none, some (fun x => pvVeblen s x), some i, .pint 0⟩
  else if pvEqI s 0 then do
    let p ← pvPredE i
    .ok ⟨some (fun n => .pint n), none,
      some (fun x => pvMul (pvVeblen (.pint 0) p) x), none, .pint 0⟩
  else if kindP s = .successor then do
    let start ←
      if !pvEqI i 0 then do
        let p ← pvPredE i
        pure (pvAdd (pvVeblen s p) (.pint 1))
      else pure (PV.pint 0)
    let toSub ← pvPredE s
    .ok ⟨none, some (fun x => pvVeblen toSub x), none, none, start⟩
  else do
    let toArg ←
      if pvEqI i 0 then pure (PV.pint 0)
      else do
        let p ← pvPredE i
        pure (pvAdd (pvVeblen s p) (.pint 1))
    .ok ⟨none, none, some (fun a => pvVeblen a toArg), some s, .pint 0⟩

def cnfSingleLadder (p : PV) (k : Nat) : Except String FundPlan :=
  if k > 1 then
    .ok ⟨none, none,
      some (fun x => pvAdd (.pord (.mk .nil (.cons p (k - 1) .nil) 0)) x),
      some (.pord (.mk .nil (.cons p 1 .nil) 0)), .pint 0⟩
  else if pvEqI p 1 then
    .ok ⟨some (fun n => .pint n), none, none, none, .pint 0⟩
  else if kindP p = .successor then do
    let pp ← pvPredE p
    .ok ⟨some (fun n => .pint n), none,
      some (fun x => pvMul (pvVeblen (.pint 0) pp) x), none, .pint 0⟩
  else
    .ok ⟨none, none, some (fun x => pvVeblen (.pint 0) x), some p, .pint 0⟩

def fundAnalyze : POrd → Except String FundPlan
  | .mk (.cons s i k tV) (.cons e kc tC) _ =>
      .ok ⟨none, none,
        some (fun x =>
          pvAdd (.pord (.mk (.cons s i k tV) (dropLastC (.cons e kc tC)) 0)) x),
        some (.pord (.mk .nil (lastC (.cons e kc tC)) 0)), .pint 0⟩
  | .mk .nil (.cons e kc (.cons e2 kc2 tC)) _ =>
      .ok ⟨none, none,
        some (fun x =>
          pvAdd (.pord (.mk .nil (dropLastC (.cons e kc (.cons e2 kc2 tC))) 0)) x),
        some (.pord (.mk .nil (lastC (.cons e kc (.cons e2 kc2 tC))) 0)), .pint 0⟩
  | .mk .nil (.cons p kp .nil) _ => cnfSingleLadder p kp
  | .mk (.cons s i k (.cons s2 i2 k2 tV)) .nil _ =>
      .ok ⟨none, none,
        some (fun x =>
          pvAdd (.pord (.mk (dropLastV (.cons s i k (.cons s2 i2 k2 tV))) .nil 0))
            x),
        some (.pord (.mk (lastV (.cons s i k (.cons s2 i2 k2 tV))) .nil 0)),
        .pint 0⟩
  | .mk (.cons s i k .nil) .nil _ => vnfSingleLadder s i k
  | .mk .nil .nil _ => .error "unreachable for a limit ordinal"

/-- Attach a recursively constructed delegate sequence: an error in the
recursive construction propagates. -/
def fundRec (z : Except String Fund) (v : POrd) (plan : FundPlan) :
    Except String Fund :=
  match z with
  | .error e => .error e
  | .ok idx => .ok (.mk v plan.direct plan.step plan.thenf (some idx) plan.start)

/-- `fundamental.__init__`: raises unless the value is a limit ordinal,
then classifies it and recursively constructs the delegate sequence for
`to_index` (an int there would fail the `isinstance` check).  Fuel-based
so the kernel can evaluate it; `szO v + 1` fuel always suffices because
`to_index` is strictly smaller in `szO`. -/
def fundInitF : Nat → POrd → Except String Fund
  | 0, _ => .error "fuel exhausted"
  | fuel + 1, v =>
      if kindO v ≠ .limit then .error notLimitMsg
      else
        match fundAnalyze v with
        | .error e => .error e
        | .ok plan =>
            match plan.toIndex with
            | none => .ok (.mk v plan.direct plan.step plan.thenf none plan.start)
            | some (.pint _) => .error notOrdMsg
            | some (.pord o) => fundRec (fundInitF fuel o) v plan

/-- `fundamental(value)`. -/
def fundInit (v : POrd) : Except String Fund := fundInitF (szO v + 1) v

def iterStep (g : PV → PV) : Nat → PV → PV
  | 0, x => x
  | n + 1, x => iterStep g n (g x)

def applyThen (thn : Option (PV → PV)) (x : PV) : PV :=
  match thn with
  | some g => g x
  | none => x

/-- `fundamental.__getitem__`: direct strategy first, then delegation,
then the iterated step (whose cache is pure memoization). -/
def fundGet : Fund → Nat → PV
  | .mk _ (some d) _ thn _ _, n => applyThen thn (d n)
  | .mk _ none _ thn (some idx) _, n => applyThen thn (fundGet idx n)
  | .mk _ none stp thn none st, n =>
      applyThen thn (iterStep (fun x => (stp.getD id) x) n st)

/-- Whether a stored value is an ordinal whose representation has a
leading VNF term, i.e. is at least `epsilon_0` in normal form. -/
def isVnfHeaded : PV → Bool
  | .pord (.mk (.cons _ _ _ _) _ _) => true
  | _ => false

/-- Strictly descending `_cnf` exponents, in the code's own order. -/
def sortedC : CL → Bool
  | .nil => true
  | .cons _ _ .nil => true
  | .cons e _ (.cons e' k' t) => pvLt e' e && sortedC (.cons e' k' t)

/-- Strictly descending `_vnf` terms under `_veblen_cmp` of the
coefficient-1-normalized heads. -/
def sortedV : VL → Bool
  | .nil => true
  | .cons _ _ _ .nil => true
  | .cons s i _ (.cons s' i' k' t) =>
      (vcmpHeads s' i' s i == .lt) && sortedV (.cons s' i' k' t)

mutual

/-- The documented normal-form invariant of an ordinal value: VNF terms
sorted strictly descending with positive coefficients and arguments
that keep the term at least `epsilon_0` (a subscript-0 term needs a
VNF-headed argument), CNF terms sorted strictly descending with
positive coefficients and non-zero exponents, all nested stored values
again in normal form. -/
def isNF : POrd → Bool
  | .mk v c _ => isNFV v && isNFC c && sortedV v && sortedC c

def isNFV : VL → Bool
  | .nil => true
  | .cons s i k t =>
      decide (1 ≤ k) && isNFP s && isNFP i &&
        (!pvEqI s 0 || isVnfHeaded i) && isNFV t

def isNFC : CL → Bool
  | .nil => true
  | .cons e k t => decide (1 ≤ k) && isNFP e && !pvEqI e 0 && isNFC t

def isNFP : PV → Bool
  | .pint _ => true
  | .pord o => isNF o

end

def exIsOk : Except String Fund → Bool
  | .ok _ => true
  | .error _ => false

instance : DecidableEq (Except String PV) := fun x y =>
  match x, y with
  | .ok a, .ok b =>
      if h : a = b then isTrue (congrArg Except.ok h)
      else isFalse (fun hh => h (Except.ok.inj hh))
  | .error a, .error b =>
      if h : a = b then isTrue (congrArg Except.error h)
      else isFalse (fun hh => h (Except.error.inj hh))
  | .ok _, .error _ => isFalse (fun hh => Except.noConfusion hh)
  | .error _, .ok _ => isFalse (fun hh => Except.noConfusion hh)

/-
Concrete values used to settle the claims.  CPython hashes positive
ints modulo `2^61 - 1`, so `ordinal(0)` and `ordinal(2^61 - 1)` share
hash `0`, and `ordinal(1)`, `ordinal(2^61)` and `ordinal(2^61 + 1)`
hash to `1`, `1` and `2` respectively.
-/

/-- `ordinal(0)`. -/
def ord0 : POrd := .mk .nil .nil 0

/-- `ordinal(1)`. -/
def ord1 : POrd := .mk .nil .nil 1

/-- `ordinal(5)`. -/
def ord5 : POrd := .mk .nil .nil 5

/-- `ordinal(2^61 - 1)`: hash-collides with `ordinal(0)`. -/
def ordM : POrd := .mk .nil .nil (2 ^ 61 - 1)

/-- `ordinal(2^61)`: hash-collides with `ordinal(1)`. -/
def ordT : POrd := .mk .nil .nil (2 ^ 61)

/-- `ordinal(2)`. -/
def ordTwo : POrd := .mk .nil .nil 2

/-- `ordinal(2^61 + 1)`: hash-collides with `ordinal(2)`. -/
def ordBig : POrd := .mk .nil .nil (2 ^ 61 + 1)

/-- `veblen(ordinal(2^61 + 1), 0)`: the single coefficient-1 VNF term
with subscript `ordinal(2^61 + 1)`, built by the library itself. -/
def vebBig : POrd := .mk (.cons (.pord ordBig) (.pint 0) 1 .nil) .nil 0

/-- `omega + 1`. -/
def omegap1 : POrd := .mk .nil (.cons (.pint 1) 1 .nil) 1

/-- The value of `omega ** 2`: a single CNF term whose exponent is the
ordinal object `ordinal(2)` (the power path builds exponents as
ordinals). -/
def wExp2 : POrd := .mk .nil (.cons (.pord (.mk .nil .nil 2)) 1 .nil) 0

/-- The value of `omega ** 3`. -/
def wExp3 : POrd := .mk .nil (.cons (.pord (.mk .nil .nil 3)) 1 .nil) 0

/-- The value of `omega * omega`: a single CNF term with the int-typed
exponent `2` (multiplication adds the int exponents `1 + 1`); it is
`==`-equal but not structurally identical to `omega ** 2`. -/
def wInt2 : POrd := .mk .nil (.cons (.pint 2) 1 .nil) 0

/-- The value of `omega ** (2^61 + 1)`: its exponent `ordinal(2^61 + 1)`
hash-collides with `ordinal(2)`. -/
def wExpK : POrd := .mk .nil (.cons (.pord (.mk .nil .nil (2 ^ 61 + 1))) 1 .nil) 0

/-- The value of `omega ** (2^61)`: its exponent `ordinal(2^61)`
hash-collides with `ordinal(1)`. -/
def wExpT : POrd := .mk .nil (.cons (.pord (.mk .nil .nil (2 ^ 61))) 1 .nil) 0

/-- The value of `veblen(0, ordinal(1))`: equal to `omega` but carrying
an ordinal-typed exponent `ordinal(1)`. -/
def vebB : POrd := .mk .nil (.cons (.pord (.mk .nil .nil 1)) 1 .nil) 0

/-- `omega^(omega^(2^61 - 1) + 1)`: what `2 ** (veblen(0, ordinal(1)) +
omega ** (2^61))` evaluates to. -/
def c4lhs : POrd :=
  .mk .nil (.cons (.pord (.mk .nil (.cons (.pint (2 ^ 61 - 1)) 1 .nil) 1)) 1 .nil) 0

/-- `omega^(omega^(2^61 - 1))`: what `(2 ** veblen(0, ordinal(1))) *
(2 ** (omega ** (2^61)))` evaluates to. -/
def c4rhs : POrd :=
  .mk .nil (.cons (.pord (.mk .nil (.cons (.pint (2 ^ 61 - 1)) 1 .nil) 0)) 1 .nil) 0

/-
Helper lemmas.
-/

theorem cmpFuel_succ (a b : POrd) : cmpFuel a b = cmpFuel a b - 1 + 1 := by
  unfold cmpFuel
  omega

theorem pvFuel_succ (x y : PV) : pvFuel x y = pvFuel x y - 1 + 1 := by
  unfold pvFuel
  omega

theorem ordLtF_hash_eq (f : Nat) (a b : POrd) (h : ordHash a = ordHash b) :
    ordLtF (f + 1) a b = false := by
  simp [ordLtF, h]

theorem ordLeF_hash_eq (f : Nat) (a b : POrd) (h : ordHash a = ordHash b) :
    ordLeF (f + 1) a b = true := by
  simp [ordLeF, h]

/-- Reflexivity of the fueled equality family, given enough fuel:
equal hashes and tiers of identical values pass the shortcuts, and the
structural comparison is reflexive by induction. -/
theorem eqF_refl (f : Nat) :
    (∀ a, szO a < f → ordEqF f a a = true) ∧
    (∀ l, szV l < f → vnfEqF f l l = true) ∧
    (∀ l, szC l < f → cnfEqF f l l = true) ∧
    (∀ x, szP x < f → pvEqF f x x = true) := by
  induction f with
  | zero => exact ⟨fun a h => absurd h (by omega), fun l h => absurd h (by omega),
      fun l h => absurd h (by omega), fun x h => absurd h (by omega)⟩
  | succ f ih =>
      refine ⟨?_, ?_, ?_, ?_⟩
      · intro a h
        obtain ⟨v, c, n⟩ := a
        have hv : szV v < f := by
          have := h
          simp [szO] at this
          omega
        have hc : szC c < f := by
          simp [szO] at h
          omega
        simp [ordEqF, POrd.vnf, POrd.cnf, POrd.nat, ih.2.1 v hv, ih.2.2.1 c hc]
      · intro l h
        match l with
        | .nil => rfl
        | .cons s i k t =>
            have hs : szP s < f := by
              simp [szV] at h
              omega
            have hi : szP i < f := by
              simp [szV] at h
              omega
            have ht : szV t < f := by
              simp [szV] at h
              omega
            simp [vnfEqF, ih.2.2.2 s hs, ih.2.2.2 i hi, ih.2.1 t ht]
      · intro l h
        match l with
        | .nil => rfl
        | .cons e k t =>
            have he : szP e < f := by
              simp [szC] at h
              omega
            have ht : szC t < f := by
              simp [szC] at h
              omega
            simp [cnfEqF, ih.2.2.2 e he, ih.2.2.1 t ht]
      · intro x h
        match x with
        | .pint n => simp [pvEqF]
        | .pord o =>
            have ho : szO o < f := by
              simp [szP] at h
              omega
            simp [pvEqF, ih.1 o ho]

theorem ordEq_refl (a : POrd) : ordEq a a = true :=
  (eqF_refl (cmpFuel a a)).1 a (by unfold cmpFuel; omega)

theorem pvEq_refl (x : PV) : pvEq x x = true :=
  (eqF_refl (pvFuel x x)).2.2.2 x (by unfold pvFuel; omega)

theorem pvEq_int_ord (n : Nat) (o : POrd) :
    pvEq (.pint n) (.pord o) = ordEqInt o n := by
  rw [pvEq, pvFuel_succ]
  rfl

theorem pvEq_ord_int (o : POrd) (n : Nat) :
    pvEq (.pord o) (.pint n) = ordEqInt o n := by
  rw [pvEq, pvFuel_succ]
  rfl

/-- C1: the claim that the comparison operators form a total order
consistent with equality fails on the code: `ordinal(0)` and
`ordinal(2^61 - 1)` are distinct normal-form ordinals whose CPython
hashes are both `0`, so `__lt__` returns `False` in both directions
while `__eq__` is also `False` (none of `a < b`, `a == b`, `b < a`
holds), `__le__` returns `True` although neither `<` nor `==` holds,
and `<` fails transitivity through `ordinal(5)`. -/
theorem C1_trichotomy_fails :
    isNF ord0 = true ∧ isNF ordM = true ∧ ord0 ≠ ordM ∧
    ordHash ord0 = ordHash ordM ∧
    ordLt ord0 ordM = false ∧ ordEq ord0 ordM = false ∧
    ordLt ordM ord0 = false ∧ ordLe ord0 ordM = true ∧
    ordLt ord0 ord5 = true ∧ ordLt ord5 ordM = true := by
  decide

/-- C2: the required property `tier(a) < tier(b) implies a < b` fails
at the comparison operator: `tier(ordinal(1)) = (0, 0)` is
lexicographically below `tier(ordinal(2^61)) = (0, 61)`, yet
`ordinal(1) < ordinal(2^61)` returns `False` because the two hashes
collide (`hash(2^61) = 1`). -/
theorem C2_tier_monotonicity_fails :
    isNF ord1 = true ∧ isNF ordT = true ∧
    tierO ord1 = (0, 0) ∧ tierO ordT = (0, 61) ∧
    tierLt (tierO ord1) (tierO ordT) = true ∧
    ordLt ord1 ordT = false := by
  decide

/-- C3: `1 + omega == omega` and `omega + 1 > omega` hold, but addition
is not associative on all normal forms: with `a = omega ** 2`,
`b = omega ** 3`, `c = omega ** (2^61 + 1)` (all library-constructed
normal forms, with ordinal-typed exponents), `(a + b) + c` correctly
erases everything and returns `c`, while `a + (b + c)` fails to erase
`a`'s term because `ordinal(2)` and `ordinal(2^61 + 1)` hash-collide,
leaving an unmerged two-term CNF that is not equal to `c`. -/
theorem C3_associativity_fails :
    ordPow omegaO (.pint 2) = .ok (.pord wExp2) ∧
    ordPow omegaO (.pint 3) = .ok (.pord wExp3) ∧
    ordPow omegaO (.pint (2 ^ 61 + 1)) = .ok (.pord wExpK) ∧
    isNF wExp2 = true ∧ isNF wExp3 = true ∧ isNF wExpK = true ∧
    pvAdd (pvAdd (.pord wExp2) (.pord wExp3)) (.pord wExpK) = .pord wExpK ∧
    pvAdd (.pord wExp2) (pvAdd (.pord wExp3) (.pord wExpK)) =
      .pord (.mk .nil (.cons (.pord (.mk .nil .nil 2)) 1
        (.cons (.pord (.mk .nil .nil (2 ^ 61 + 1))) 1 .nil)) 0) ∧
    pvAdd (pvAdd (.pord wExp2) (.pord wExp3)) (.pord wExpK) ≠
      pvAdd (.pord wExp2) (pvAdd (.pord wExp3) (.pord wExpK)) ∧
    pvEq (pvAdd (pvAdd (.pord wExp2) (.pord wExp3)) (.pord wExpK))
      (pvAdd (.pord wExp2) (pvAdd (.pord wExp3) (.pord wExpK))) = false ∧
    pvAdd (.pint 1) (.pord omegaO) = .pord omegaO ∧
    pvGt (pvAdd (.pord omegaO) (.pint 1)) (.pord omegaO) = true := by
  decide

/-- C4: `omega ** 2 == omega * omega` and `omega ** omega ==
veblen(0, omega)` hold, but the law `A ** (B + C) == A**B * A**C` fails
below `epsilon_0`: with `A = 2`, `B = veblen(0, ordinal(1))` (equal to
`omega`) and `C = omega ** (2^61)`, the sum `B + C` keeps both terms
because `ordinal(1)` and `ordinal(2^61)` hash-collide, and
`2 ** (B + C)` then degrades the retained `omega` term into a stray
`+1` in the exponent: the two sides evaluate to
`omega^(omega^(2^61 - 1) + 1)` and `omega^(omega^(2^61 - 1))`, which
are unequal. -/
theorem C4_power_law_fails :
    ordPow omegaO (.pint 2) = .ok (.pord wExp2) ∧
    pvMul (.pord omegaO) (.pord omegaO) = .pord wInt2 ∧
    pvEq (.pord wExp2) (.pord wInt2) = true ∧
    ordPow omegaO (.pord omegaO) = .ok (pvVeblen (.pint 0) (.pord omegaO)) ∧
    pvVeblen (.pint 0) (.pord ord1) = .pord vebB ∧
    ordPow omegaO (.pint (2 ^ 61)) = .ok (.pord wExpT) ∧
    isNF vebB = true ∧ isNF wExpT = true ∧
    ordLt vebB epsilon0O = true ∧ ordLt wExpT epsilon0O = true ∧
    pvPow (.pint 2) (pvAdd (.pord vebB) (.pord wExpT)) = .ok (.pord c4lhs) ∧
    pvPow (.pint 2) (.pord vebB) = .ok (.pord vebB) ∧
    pvPow (.pint 2) (.pord wExpT) = .ok (.pord c4rhs) ∧
    pvMul (.pord vebB) (.pord c4rhs) = .pord c4rhs ∧
    c4lhs ≠ c4rhs ∧
    pvEq (.pord c4lhs) (.pord c4rhs) = false := by
  decide

/-- C5: the multiplication special cases hold for every ordinal object
(`a * 0` is the int `0`, `a * 1` returns `a` itself, `1 * a` and
`0 * a` compare equal to `a` and `0` respectively), and the worked
examples `2 * omega == omega`, `omega * 2 == omega + omega`,
`(omega+1) * (omega+1) == omega*omega + omega + 1` evaluate as
claimed. -/
theorem C5_mul_special_cases :
    (∀ a : POrd, ordMul a (.pint 0) = .pint 0) ∧
    (∀ a : POrd, ordMul a (.pint 1) = .pord a) ∧
    (∀ a : POrd, pvEq (pvMul (.pint 1) (.pord a)) (.pord a) = true) ∧
    (∀ a : POrd, pvEq (pvMul (.pint 0) (.pord a)) (.pint 0) = true) ∧
    pvMul (.pint 2) (.pord omegaO) = .pord omegaO ∧
    pvMul (.pord omegaO) (.pint 2) = pvAdd (.pord omegaO) (.pord omegaO) ∧
    pvMul (.pord omegap1) (.pord omegap1) =
      pvAdd (pvAdd (pvMul (.pord omegaO) (.pord omegaO)) (.pord omegaO))
        (.pint 1) := by
  refine ⟨fun a => rfl, fun a => rfl, ?_, ?_, by decide, by decide, by decide⟩
  · intro a
    obtain ⟨v, c, n⟩ := a
    match v, c with
    | VL.cons s i k t, c => exact pvEq_refl (.pord (.mk (.cons s i k t) c n))
    | VL.nil, CL.cons e k t => exact pvEq_refl (.pord (.mk .nil (.cons e k t) n))
    | VL.nil, CL.nil =>
        match n with
        | 0 => decide
        | 1 => decide
        | n + 2 => exact pvEq_refl (.pord (.mk .nil .nil (n + 2)))
  · intro a
    obtain ⟨v, c, n⟩ := a
    match v, c with
    | VL.cons _ _ _ _, _ => rfl
    | VL.nil, CL.cons _ _ _ => rfl
    | VL.nil, CL.nil =>
        match n with
        | 0 => decide
        | 1 => decide
        | _ + 2 => rfl

/-- C6: the fixed-point guard of `veblen` fails as claimed.  With
`sub = ordinal(2)` and `value = veblen(ordinal(2^61 + 1), 0)` — a
normal-form single VNF term with coefficient `1`, empty CNF, zero
natural part, and subscript `ordinal(2^61 + 1)` strictly greater than
`ordinal(2)` (both finite, so the true ordinal order is the order of
their natural parts) — the guard compares the subscripts with the
stored values' `>`, whose hash shortcut returns `False` on this
hash-colliding pair, so `veblen` wraps the fixed point as
`phi_2(value)` instead of returning it unchanged; the result differs
from `value` both structurally and under `==`.  The worked examples
`veblen(0, 1) == omega`, `veblen(1, 0) == epsilon_0`,
`veblen(0, epsilon_0) == epsilon_0` do hold. -/
theorem C6_veblen_fixed_point_fails :
    pvVeblen (.pord ordBig) (.pint 0) = .pord vebBig ∧
    isNF vebBig = true ∧ isNF ordTwo = true ∧ isNF ordBig = true ∧
    ordBig.nat > ordTwo.nat ∧
    ordHash ordBig = ordHash ordTwo ∧
    pvGt (.pord ordBig) (.pord ordTwo) = false ∧
    pvVeblen (.pord ordTwo) (.pord vebBig) =
      .pord (.mk (.cons (.pord ordTwo) (.pord vebBig) 1 .nil) .nil 0) ∧
    pvVeblen (.pord ordTwo) (.pord vebBig) ≠ .pord vebBig ∧
    pvEq (pvVeblen (.pord ordTwo) (.pord vebBig)) (.pord vebBig) = false ∧
    pvVeblen (.pint 0) (.pint 1) = .pord omegaO ∧
    pvVeblen (.pint 1) (.pint 0) = .pord epsilon0O ∧
    pvVeblen (.pint 0) (.pord epsilon0O) = .pord epsilon0O := by
  refine ⟨by decide, by decide, by decide, by decide, by decide, by decide,
    by decide, by decide, by decide, by decide, by decide, by decide,
    by decide⟩

/-- C9: whenever two ordinal objects have equal hashes, `__lt__`
returns `False` and `__le__` returns `True` straight from the hash
shortcut, so trichotomy of `<` depends on the absence of hash
collisions (C1's theorem exhibits a collision that breaks it). -/
theorem C9_hash_equal_shortcut (a b : POrd) (h : ordHash a = ordHash b) :
    ordLt a b = false ∧ ordLe a b = true := by
  constructor
  · rw [ordLt, cmpFuel_succ]
    exact ordLtF_hash_eq _ a b h
  · rw [ordLe, cmpFuel_succ]
    exact ordLeF_hash_eq _ a b h

/-- C9 witness: the concrete colliding pair `ordinal(0)`,
`ordinal(2^61 - 1)`. -/
theorem C9_hash_equal_shortcut_witness :
    ordHash ord0 = ordHash ordM ∧ ordLt ord0 ordM = false ∧
    ordLe ord0 ordM = true :=
  ⟨by decide, (C9_hash_equal_shortcut ord0 ordM (by decide)).1,
    (C9_hash_equal_shortcut ord0 ordM (by decide)).2⟩

theorem exIsOk_fundRec (z : Except String Fund) (v : POrd) (plan : FundPlan) :
    exIsOk (fundRec z v plan) = exIsOk z := by
  cases z <;> rfl

theorem kindO_limit_iff (v : VL) (c : CL) (n : Nat) :
    kindO (.mk v c n) = .limit ↔ n = 0 ∧ ¬(v = .nil ∧ c = .nil) := by
  constructor
  · intro h
    match v, c, n with
    | VL.nil, CL.nil, 0 => simp [kindO] at h
    | VL.nil, CL.nil, m + 1 => simp [kindO] at h
    | VL.nil, CL.cons _ _ _, m =>
        simp [kindO] at h ⊢
        omega
    | VL.cons _ _ _ _, _, m =>
        simp [kindO] at h ⊢
        omega
  · intro ⟨h0, hne⟩
    subst h0
    match v, c with
    | VL.nil, CL.nil => exact absurd ⟨rfl, rfl⟩ hne
    | VL.nil, CL.cons _ _ _ => rfl
    | VL.cons _ _ _ _, CL.nil => rfl
    | VL.cons _ _ _ _, CL.cons _ _ _ => rfl

theorem pvPredE_ok_of_successor {x : PV} (h : kindP x = .successor) :
    ∃ y, pvPredE x = .ok y := by
  match x with
  | .pint 0 => simp [kindP] at h
  | .pint (n + 1) => exact ⟨.pint n, rfl⟩
  | .pord o =>
      refine ⟨.pord (.mk o.vnf o.cnf (o.nat - 1)), ?_⟩
      simp [kindP] at h
      simp [pvPredE, h]

theorem kindP_limit_pord {x : PV} (h : kindP x = .limit) :
    ∃ o, x = .pord o ∧ kindO o = .limit := by
  match x with
  | .pint n =>
      simp [kindP] at h
      split at h <;> simp_all
  | .pord o =>
      exact ⟨o, rfl, h⟩

theorem kindP_successor_of {x : PV} (hl : kindP x ≠ .limit)
    (h0 : pvEqI x 0 = false) : kindP x = .successor := by
  match x with
  | .pint n =>
      simp [pvEqI] at h0
      simp [kindP, h0]
  | .pord o =>
      obtain ⟨v, c, n⟩ := o
      match v, c, n with
      | VL.nil, CL.nil, 0 => simp [pvEqI, ordEqInt] at h0
      | VL.nil, CL.nil, m + 1 => simp [kindP, kindO]
      | VL.nil, CL.cons _ _ _, 0 => exact absurd (by rfl) hl
      | VL.cons _ _ _ _, _, 0 => exact absurd (by rfl) hl
      | VL.nil, CL.cons _ _ _, m + 1 => simp [kindP, kindO]
      | VL.cons _ _ _ _, _, m + 1 => simp [kindP, kindO]

theorem lastC_shape (c : CL) :
    c = .nil ∨ ∃ e k, lastC c = .cons e k .nil := by
  match c with
  | CL.nil => exact Or.inl rfl
  | CL.cons e k CL.nil => exact Or.inr ⟨e, k, rfl⟩
  | CL.cons _ _ (CL.cons e' k' t) =>
      rcases lastC_shape (.cons e' k' t) with h | ⟨e'', k'', h⟩
      · exact absurd h (by simp)
      · exact Or.inr ⟨e'', k'', by rw [lastC, h]⟩

theorem lastV_shape (l : VL) :
    l = .nil ∨ ∃ s i k, lastV l = .cons s i k .nil := by
  match l with
  | VL.nil => exact Or.inl rfl
  | VL.cons s i k VL.nil => exact Or.inr ⟨s, i, k, rfl⟩
  | VL.cons _ _ _ (VL.cons s' i' k' t) =>
      rcases lastV_shape (.cons s' i' k' t) with h | ⟨s'', i'', k'', h⟩
      · exact absurd h (by simp)
      · exact Or.inr ⟨s'', i'', k'', by rw [lastV, h]⟩

theorem isNFC_lastC {c : CL} (h : isNFC c = true) : isNFC (lastC c) = true := by
  match c with
  | CL.nil => exact h
  | CL.cons e k CL.nil => exact h
  | CL.cons e k (CL.cons e' k' t) =>
      rw [lastC]
      refine isNFC_lastC ?_
      rw [isNFC] at h
      exact ((Bool.and_eq_true _ _).mp h).2

theorem isNFV_lastV {l : VL} (h : isNFV l = true) : isNFV (lastV l) = true := by
  match l with
  | VL.nil => exact h
  | VL.cons s i k VL.nil => exact h
  | VL.cons s i k (VL.cons s' i' k' t) =>
      rw [lastV]
      refine isNFV_lastV ?_
      rw [isNFV] at h
      exact ((Bool.and_eq_true _ _).mp h).2

theorem sortedC_lastC (c : CL) : sortedC (lastC c) = true := by
  rcases lastC_shape c with h | ⟨e, k, h⟩
  · subst h
    rfl
  · rw [h]
    rfl

theorem sortedV_lastV (l : VL) : sortedV (lastV l) = true := by
  rcases lastV_shape l with h | ⟨s, i, k, h⟩
  · subst h
    rfl
  · rw [h]
    rfl

theorem szC_lastC_le (c : CL) : szC (lastC c) ≤ szC c := by
  match c with
  | CL.nil => exact Nat.le_refl _
  | CL.cons e k CL.nil => exact Nat.le_refl _
  | CL.cons e k (CL.cons e' k' t) =>
      calc szC (lastC (.cons e k (.cons e' k' t)))
          = szC (lastC (.cons e' k' t)) := by rw [lastC]
        _ ≤ szC (.cons e' k' t) := szC_lastC_le (.cons e' k' t)
        _ ≤ szC (.cons e k (.cons e' k' t)) := by simp only [szC]; omega

theorem szV_lastV_le (l : VL) : szV (lastV l) ≤ szV l := by
  match l with
  | VL.nil => exact Nat.le_refl _
  | VL.cons s i k VL.nil => exact Nat.le_refl _
  | VL.cons s i k (VL.cons s' i' k' t) =>
      calc szV (lastV (.cons s i k (.cons s' i' k' t)))
          = szV (lastV (.cons s' i' k' t)) := by rw [lastV]
        _ ≤ szV (.cons s' i' k' t) := szV_lastV_le (.cons s' i' k' t)
        _ ≤ szV (.cons s i k (.cons s' i' k' t)) := by simp only [szV]; omega

theorem szC_lastC_add_len (c : CL) : szC (lastC c) + lenC c ≤ szC c + 1 := by
  match c with
  | CL.nil => simp [lastC, lenC, szC]
  | CL.cons e k CL.nil => simp [lastC, lenC, szC]
  | CL.cons e k (CL.cons e' k' t) =>
      have := szC_lastC_add_len (.cons e' k' t)
      simp only [lastC, lenC, szC] at this ⊢
      omega

theorem szV_lastV_add_len (l : VL) : szV (lastV l) + lenV l ≤ szV l + 1 := by
  match l with
  | VL.nil => simp [lastV, lenV, szV]
  | VL.cons s i k VL.nil => simp [lastV, lenV, szV]
  | VL.cons s i k (VL.cons s' i' k' t) =>
      have := szV_lastV_add_len (.cons s' i' k' t)
      simp only [lastV, lenV, szV] at this ⊢
      omega

theorem lenV_le_szV (l : VL) : lenV l ≤ szV l := by
  match l with
  | VL.nil => simp [lenV, szV]
  | VL.cons s i k t =>
      have := lenV_le_szV t
      simp only [lenV, szV]
      omega

theorem kindO_zero_ordEqInt {o : POrd} (h : kindO o = .zero) :
    ordEqInt o 0 = true := by
  obtain ⟨v, c, n⟩ := o
  match v, c, n with
  | VL.nil, CL.nil, 0 => rfl
  | VL.nil, CL.nil, m + 1 => simp [kindO] at h
  | VL.nil, CL.cons _ _ _, m => cases m <;> simp [kindO] at h
  | VL.cons _ _ _ _, _, m => cases m <;> simp [kindO] at h

theorem bind_ok_eq {α β : Type} (y : α) (k : α → Except String β) :
    ((Except.ok y : Except String α) >>= k) = k y := rfl

theorem isVnfHeaded_true {x : PV} (h : isVnfHeaded x = true) :
    ∃ s i k t c n, x = .pord (.mk (.cons s i k t) c n) := by
  match x with
  | .pint _ => simp [isVnfHeaded] at h
  | .pord (.mk .nil _ _) => simp [isVnfHeaded] at h
  | .pord (.mk (.cons s i k t) c n) => exact ⟨s, i, k, t, c, n, rfl⟩

theorem kindP_limit_of_not {x : PV} (h0 : pvEqI x 0 = false)
    (h1 : kindP x ≠ .successor) : kindP x = .limit := by
  match x with
  | .pint 0 => simp [pvEqI] at h0
  | .pint (n + 1) => exact absurd rfl h1
  | .pord o =>
      match ho : kindO o with
      | .zero =>
          have := kindO_zero_ordEqInt ho
          rw [show pvEqI (.pord o) 0 = ordEqInt o 0 from rfl, this] at h0
          exact absurd h0 (by simp)
      | .successor => exact absurd ho h1
      | .limit => exact ho

theorem isNFV_head {s i : PV} {k : Nat} {t : VL}
    (h : isNFV (.cons s i k t) = true) :
    1 ≤ k ∧ isNFP s = true ∧ isNFP i = true ∧
      (!pvEqI s 0 || isVnfHeaded i) = true ∧ isNFV t = true := by
  rw [isNFV] at h
  simp only [Bool.and_eq_true, decide_eq_true_eq] at h
  exact ⟨h.1.1.1.1, h.1.1.1.2, h.1.1.2, h.1.2, h.2⟩

theorem isNFC_head {e : PV} {k : Nat} {t : CL}
    (h : isNFC (.cons e k t) = true) :
    1 ≤ k ∧ isNFP e = true ∧ pvEqI e 0 = false ∧ isNFC t = true := by
  rw [isNFC] at h
  simp only [Bool.and_eq_true, decide_eq_true_eq, Bool.not_eq_true'] at h
  exact ⟨h.1.1.1, h.1.1.2, h.1.2, h.2⟩

/-- Construction of a fundamental sequence succeeds on every normal-form
limit ordinal, given fuel above its size: every delegate (`to_index`) is
a strictly smaller normal-form limit ordinal, and every `predecessor`
call of the analysis is guarded by a successor-kind fact. -/
theorem fundInitF_ok_of_NF :
    ∀ f v, szO v < f → isNF v = true → kindO v = .limit →
      exIsOk (fundInitF f v) = true := by
  intro f
  induction f with
  | zero =>
      intro v h _ _
      omega
  | succ f ih =>
      intro v hsz hnf hlim
      obtain ⟨vnf, cnf, n⟩ := v
      have hn : n = 0 := ((kindO_limit_iff _ _ _).mp hlim).1
      subst hn
      rw [isNF] at hnf
      have hx := (Bool.and_eq_true _ _).mp hnf
      have hx2 := (Bool.and_eq_true _ _).mp hx.1
      have hx3 := (Bool.and_eq_true _ _).mp hx2.1
      have hnfV : isNFV vnf = true := hx3.1
      have hnfC : isNFC cnf = true := hx3.2
      cases vnf with
      | cons s i k tV =>
        cases cnf with
        | cons e kc tC =>
            -- more than one term, CNF present: peel the last CNF term
            simp only [fundInitF, fundAnalyze]
            rw [if_neg (by simp [hlim])]
            refine Eq.trans (exIsOk_fundRec _ _ _) (ih _ ?_ ?_ ?_)
            · have h1 := szC_lastC_le (.cons e kc tC)
              simp only [szO, szV] at hsz ⊢
              omega
            · rw [isNF]
              simp only [Bool.and_eq_true]
              exact ⟨⟨⟨rfl, isNFC_lastC hnfC⟩, rfl⟩, sortedC_lastC _⟩
            · obtain ⟨e', k', hsh⟩ :=
                (lastC_shape (.cons e kc tC)).resolve_left (by simp)
              rw [hsh]
              rfl
        | nil =>
          cases tV with
          | cons s2 i2 k2 tV2 =>
              -- at least two VNF terms, no CNF: peel the last VNF term
              simp only [fundInitF, fundAnalyze]
              rw [if_neg (by simp [hlim])]
              refine Eq.trans (exIsOk_fundRec _ _ _) (ih _ ?_ ?_ ?_)
              · have h1 := szV_lastV_add_len (.cons s i k (.cons s2 i2 k2 tV2))
                simp only [lenV] at h1
                simp only [szO, szC] at hsz ⊢
                omega
              · rw [isNF]
                simp only [Bool.and_eq_true]
                exact ⟨⟨⟨isNFV_lastV hnfV, rfl⟩, sortedV_lastV _⟩, rfl⟩
              · obtain ⟨s', i', k', hsh⟩ :=
                  (lastV_shape (.cons s i k (.cons s2 i2 k2 tV2))).resolve_left
                    (by simp)
                rw [hsh]
                rfl
          | nil =>
              -- a single VNF term
              obtain ⟨hk1, hnfs, hnfi, hguard, -⟩ := isNFV_head hnfV
              simp only [fundInitF, fundAnalyze]
              rw [if_neg (by simp [hlim])]
              by_cases hk : k > 1
              · rw [show vnfSingleLadder s i k = .ok ⟨none, none,
                  some (fun x =>
                    pvAdd (.pord (.mk (.cons s i (k - 1) .nil) .nil 0)) x),
                  some (.pord (.mk (.cons s i 1 .nil) .nil 0)), .pint 0⟩ from by
                    rw [vnfSingleLadder, if_pos hk]]
                refine Eq.trans (exIsOk_fundRec _ _ _) (ih _ ?_ ?_ ?_)
                · simp only [szO, szV] at hsz ⊢
                  omega
                · rw [isNF]
                  simp only [Bool.and_eq_true]
                  refine ⟨⟨⟨?_, rfl⟩, rfl⟩, rfl⟩
                  rw [isNFV]
                  simp only [Bool.and_eq_true, decide_eq_true_eq]
                  exact ⟨⟨⟨⟨Nat.le_refl 1, hnfs⟩, hnfi⟩, hguard⟩, rfl⟩
                · rfl
              · by_cases hil : kindP i = .limit
                · obtain ⟨oi, hoi, hoilim⟩ := kindP_limit_pord hil
                  subst hoi
                  rw [show vnfSingleLadder s (.pord oi) k = .ok ⟨none, none,
                    some (fun x => pvVeblen s x), some (.pord oi), .pint 0⟩ from by
                      rw [vnfSingleLadder, if_neg hk, if_pos hil]]
                  refine Eq.trans (exIsOk_fundRec _ _ _) (ih _ ?_ ?_ ?_)
                  · simp only [szO, szV, szP] at hsz ⊢
                    omega
                  · exact hnfi
                  · exact hoilim
                · by_cases hs0 : pvEqI s 0 = true
                  · rw [hs0] at hguard
                    simp only [Bool.not_true, Bool.false_or] at hguard
                    obtain ⟨s', i', k', t', c', n', hio⟩ := isVnfHeaded_true hguard
                    have hisucc : kindP i = .successor := by
                      subst hio
                      match n', hil with
                      | 0, hil => exact absurd rfl hil
                      | m + 1, _ => rfl
                    obtain ⟨y, hy⟩ := pvPredE_ok_of_successor hisucc
                    rw [show vnfSingleLadder s i k = .ok ⟨some (fun n => .pint n),
                      none,
                      some (fun x => pvMul (pvVeblen (.pint 0) y) x), none,
                      .pint 0⟩ from by
                        rw [vnfSingleLadder, if_neg hk, if_neg hil, if_pos hs0, hy,
                          bind_ok_eq]]
                    rfl
                  · have hs0f : pvEqI s 0 = false := by
                      revert hs0
                      cases pvEqI s 0 <;> simp
                    by_cases hss : kindP s = .successor
                    · obtain ⟨ys, hys⟩ := pvPredE_ok_of_successor hss
                      by_cases hi0 : pvEqI i 0 = true
                      · rw [show vnfSingleLadder s i k = .ok ⟨none,
                          some (fun x => pvVeblen ys x), none, none,
                          .pint 0⟩ from by
                            rw [vnfSingleLadder, if_neg hk, if_neg hil,
                              if_neg (by simp [hs0]), if_pos hss, hi0, hys]
                            rfl]
                        rfl
                      · have hi0f : pvEqI i 0 = false := by
                          revert hi0
                          cases pvEqI i 0 <;> simp
                        have hisucc : kindP i = .successor :=
                          kindP_successor_of hil hi0f
                        obtain ⟨yi, hyi⟩ := pvPredE_ok_of_successor hisucc
                        rw [show vnfSingleLadder s i k = .ok ⟨none,
                          some (fun x => pvVeblen ys x), none, none,
                          pvAdd (pvVeblen s yi) (.pint 1)⟩ from by
                            rw [vnfSingleLadder, if_neg hk, if_neg hil,
                              if_neg (by simp [hs0]), if_pos hss, hi0f, hyi, hys]
                            rfl]
                        rfl
                    · have hslim : kindP s = .limit := kindP_limit_of_not hs0f hss
                      obtain ⟨os, hos, hoslim⟩ := kindP_limit_pord hslim
                      have hlad : ∃ w, vnfSingleLadder s i k = .ok ⟨none, none,
                          some (fun a => pvVeblen a w), some s, .pint 0⟩ := by
                        by_cases hi0 : pvEqI i 0 = true
                        · exact ⟨.pint 0, by
                            rw [vnfSingleLadder, if_neg hk, if_neg hil,
                              if_neg (by simp [hs0]), if_neg hss, hi0]
                            rfl⟩
                        · have hi0f : pvEqI i 0 = false := by
                            revert hi0
                            cases pvEqI i 0 <;> simp
                          obtain ⟨yi, hyi⟩ := pvPredE_ok_of_successor
                            (kindP_successor_of hil hi0f)
                          exact ⟨pvAdd (pvVeblen s yi) (.pint 1), by
                            rw [vnfSingleLadder, if_neg hk, if_neg hil,
                              if_neg (by simp [hs0]), if_neg hss, hi0f, hyi]
                            rfl⟩
                      obtain ⟨w, hw⟩ := hlad
                      rw [hw]
                      subst hos
                      refine Eq.trans (exIsOk_fundRec _ _ _) (ih _ ?_ ?_ ?_)
                      · simp only [szO, szV, szP] at hsz ⊢
                        omega
                      · exact hnfs
                      · exact hoslim
      | nil =>
        cases cnf with
        | nil => simp [kindO] at hlim
        | cons e kc tC =>
          cases tC with
          | cons e2 kc2 tC2 =>
              -- at least two CNF terms, no VNF: peel the last CNF term
              simp only [fundInitF, fundAnalyze]
              rw [if_neg (by simp [hlim])]
              refine Eq.trans (exIsOk_fundRec _ _ _) (ih _ ?_ ?_ ?_)
              · have h1 := szC_lastC_add_len (.cons e kc (.cons e2 kc2 tC2))
                simp only [lenC] at h1
                simp only [szO, szV] at hsz ⊢
                omega
              · rw [isNF]
                simp only [Bool.and_eq_true]
                exact ⟨⟨⟨rfl, isNFC_lastC hnfC⟩, rfl⟩, sortedC_lastC _⟩
              · obtain ⟨e', k', hsh⟩ :=
                  (lastC_shape (.cons e kc (.cons e2 kc2 tC2))).resolve_left
                    (by simp)
                rw [hsh]
                rfl
          | nil =>
              -- a single CNF term
              obtain ⟨hk1, hnfe, he0, -⟩ := isNFC_head hnfC
              simp only [fundInitF, fundAnalyze]
              rw [if_neg (by simp [hlim])]
              by_cases hkp : kc > 1
              · rw [show cnfSingleLadder e kc = .ok ⟨none, none,
                  some (fun x =>
                    pvAdd (.pord (.mk .nil (.cons e (kc - 1) .nil) 0)) x),
                  some (.pord (.mk .nil (.cons e 1 .nil) 0)), .pint 0⟩ from by
                    rw [cnfSingleLadder, if_pos hkp]]
                refine Eq.trans (exIsOk_fundRec _ _ _) (ih _ ?_ ?_ ?_)
                · simp only [szO, szC] at hsz ⊢
                  omega
                · rw [isNF]
                  simp only [Bool.and_eq_true]
                  refine ⟨⟨⟨rfl, ?_⟩, rfl⟩, rfl⟩
                  rw [isNFC]
                  simp only [Bool.and_eq_true, decide_eq_true_eq,
                    Bool.not_eq_true']
                  exact ⟨⟨⟨Nat.le_refl 1, hnfe⟩, he0⟩, rfl⟩
                · rfl
              · by_cases hp1 : pvEqI e 1 = true
                · rw [show cnfSingleLadder e kc = .ok ⟨some (fun n => .pint n),
                    none, none, none, .pint 0⟩ from by
                      rw [cnfSingleLadder, if_neg hkp, if_pos hp1]]
                  rfl
                · by_cases hps : kindP e = .successor
                  · obtain ⟨y, hy⟩ := pvPredE_ok_of_successor hps
                    rw [show cnfSingleLadder e kc = .ok ⟨some (fun n => .pint n),
                      none,
                      some (fun x => pvMul (pvVeblen (.pint 0) y) x), none,
                      .pint 0⟩ from by
                        rw [cnfSingleLadder, if_neg hkp, if_neg (by simp [hp1]),
                          if_pos hps, hy, bind_ok_eq]]
                    rfl
                  · have hplim : kindP e = .limit := kindP_limit_of_not he0 hps
                    obtain ⟨op, hop, hoplim⟩ := kindP_limit_pord hplim
                    rw [show cnfSingleLadder e kc = .ok ⟨none, none,
                      some (fun x => pvVeblen (.pint 0) x), some e,
                      .pint 0⟩ from by
                        rw [cnfSingleLadder, if_neg hkp, if_neg (by simp [hp1]),
                          if_neg hps]]
                    subst hop
                    refine Eq.trans (exIsOk_fundRec _ _ _) (ih _ ?_ ?_ ?_)
                    · simp only [szO, szC, szP] at hsz ⊢
                      omega
                    · exact hnfe
                    · exact hoplim

/-- C8: constructing a fundamental sequence for a normal-form ordinal
that is zero or a successor raises the not-a-limit error already in
`fundamental.__init__`, before any index is accessed; for every
normal-form limit ordinal the construction succeeds without error. -/
theorem C8_fundamental_construction (v : POrd) (h : isNF v = true) :
    (kindO v ≠ .limit → fundInit v = .error notLimitMsg) ∧
    (kindO v = .limit → exIsOk (fundInit v) = true) := by
  constructor
  · intro hnl
    simp only [fundInit, fundInitF]
    rw [if_pos hnl]
  · intro hlim
    exact fundInitF_ok_of_NF (szO v + 1) v (Nat.lt_succ_self _) h hlim

/-- C8 witness: the successor ordinal `1` errors at construction and
the limit ordinal `omega` constructs successfully. -/
theorem C8_fundamental_construction_witness :
    fundInit ord1 = .error notLimitMsg ∧ exIsOk (fundInit omegaO) = true :=
  ⟨(C8_fundamental_construction ord1 (by decide)).1 (by decide),
   (C8_fundamental_construction omegaO (by decide)).2 (by decide)⟩

end PyOrd
